import Mathlib

/-!
# riv-framework, package `model`

A shallow embedding of `src/model/model.go` and the properties of its
wire projections.

Conventions of the embedding:

* Go `uint8`, `uint32`, `uint64` and `int` values are natural numbers; where an
  addition can wrap, the remainder modulo `2 ^ 64` is taken explicitly.
* A Go function that can panic returns `Except GoPanic _`.
* A Go `string` is a Lean `String`, a `[]byte` payload is a `List UInt8`; the
  `[]byte` returned by a `MarshalJSON` method is the UTF-8 text it holds.
* A Go `map[uint32]*Chunk` is the list of its entries in the order in which
  `range` visits them; a nil pointer is `none`.
-/

namespace model

/-- Go strings. -/
abbrev GoString := String

/-- Run-time panics that the functions of the package can raise. -/
inductive GoPanic where
  /-- Indexing an array or slice of length `length` at `index`. -/
  | indexOutOfRange (index length : Nat)
  /-- Selecting a field through a nil pointer. -/
  | nilPointerDereference
  deriving DecidableEq, Repr

deriving instance DecidableEq for Except

/-! ## Status -/

/-- Source: `type Status uint8`. -/
abbrev Status := Fin 256

/-- Source: `Success Status = iota`. -/
def Success : Status := 0
/-- Second constant of the `iota` block. -/
def ResultHashMismatch : Status := 1
/-- Third constant of the `iota` block. -/
def CartridgeNotFound : Status := 2
/-- Fourth constant of the `iota` block. -/
def CpuTimeExceeded : Status := 3
/-- Fifth constant of the `iota` block. -/
def Killed : Status := 4
/-- Sixth constant of the `iota` block. -/
def RuntimeError : Status := 5
/-- Seventh constant of the `iota` block. -/
def UnauthorizedUser : Status := 6

/-- The array literal `statuses := [...]string{...}` local to `Status.String`. -/
def statuses : List GoString :=
  ["STATUS_SUCCESS", "STATUS_CARTRIDGE_NOT_FOUND",
   "STATUS_CPU_TIME_EXCEEDED", "STATUS_KILLED", "STATUS_RUNTIME_ERROR",
   "STATUS_UNAUTHORIZED_USER"]

/-- Source: `func (s Status) String() string`.
The guard is `len(statuses) < int(s)`; the indexing `statuses[s]` panics when
`s` is not below the length of the array. -/
def Status.String (s : Status) : Except GoPanic GoString :=
  if statuses.length < s.val then
    .ok "STATUS_UNKNOWN"
  else
    match statuses[s.val]? with
    | some name => .ok name
    | none => .error (.indexOutOfRange s.val statuses.length)

/-! ## `encoding/json` on strings -/

/-- Lower-case hexadecimal digit of a number below sixteen. -/
def hexDigit (n : Nat) : Char :=
  if n < 10 then Char.ofNat (48 + n) else Char.ofNat (87 + n)

/-- The escape `\u00XX` written by `encoding/json` for a byte. -/
def jsonEscapeByte (n : Nat) : List Char :=
  ['\\', 'u', '0', '0', hexDigit (n / 16 % 16), hexDigit (n % 16)]

/-- The encoding of one character inside a JSON string by `json.Marshal`
(HTML escaping on, as `json.Marshal` has it): the quote and the backslash get a
backslash; backspace, form feed, newline, carriage return and tab their short
escapes; the other control characters and `<`, `>`, `&` the escape `\u00XX`;
the line and paragraph separators `\u2028` and `\u2029`; every other character
is copied. This is `encoding/json` from Go 1.22 on; earlier releases write
backspace and form feed as `\u0008` and `\u000c`. -/
def jsonEscapeChar (c : Char) : List Char :=
  if c = '"' then ['\\', '"']
  else if c = '\\' then ['\\', '\\']
  else if c = '\n' then ['\\', 'n']
  else if c = '\r' then ['\\', 'r']
  else if c = '\t' then ['\\', 't']
  else if c.toNat = 8 then ['\\', 'b']
  else if c.toNat = 12 then ['\\', 'f']
  else if c.toNat < 32 ∨ c = '<' ∨ c = '>' ∨ c = '&' then jsonEscapeByte c.toNat
  else if c.toNat = 8232 then ['\\', 'u', '2', '0', '2', '8']
  else if c.toNat = 8233 then ['\\', 'u', '2', '0', '2', '9']
  else [c]

/-- The value of `json.Marshal(str)` for a Go string: the escaped characters
between double quotes. -/
def jsonMarshalString (str : GoString) : GoString :=
  String.mk ('"' :: (str.data.flatMap jsonEscapeChar ++ ['"']))

/-- A JSON integer literal: an optional minus sign followed by digits only. -/
def isBareInteger (t : GoString) : Bool :=
  match t.data with
  | [] => false
  | '-' :: ds => !ds.isEmpty && ds.all Char.isDigit
  | ds => ds.all Char.isDigit

/-- Source: `func (s Status) MarshalJSON() ([]byte, error)`, that is
`json.Marshal(s.String())`; the argument is evaluated first, so a panic of
`String` is a panic of `MarshalJSON`; marshalling a string returns no error. -/
def Status.MarshalJSON (s : Status) : Except GoPanic GoString :=
  match Status.String s with
  | .ok name => .ok (jsonMarshalString name)
  | .error p => .error p


/-! ## Chunks and chunk sets -/

/-- Source: `type Chunk struct { Data []byte }`. -/
structure Chunk where
  /-- The payload. -/
  Data : List UInt8
  deriving DecidableEq, Repr

/-- The entries of a Go `map[uint32]*Chunk`, in the order in which one `range`
loop visits them; the value `none` is a nil `*Chunk`. -/
abbrev ChunkMap := List (Nat × Option Chunk)

/-- Source: `type DataChunks struct { ChunksData map[uint32]*Chunk; TotalChunks uint32 }`. -/
structure DataChunks where
  /-- The map from chunk index to chunk. -/
  ChunksData : ChunkMap
  /-- The declared number of chunks. -/
  TotalChunks : Nat
  deriving DecidableEq, Repr

/-- The keys of the map, in traversal order. -/
def DataChunks.keys (dc : DataChunks) : List Nat :=
  dc.ChunksData.map Prod.fst

/-- What the Go types guarantee of a `DataChunks` value: the keys of a map are
pairwise distinct, keys and `TotalChunks` are `uint32`. -/
def DataChunks.WellFormed (dc : DataChunks) : Prop :=
  dc.keys.Nodup ∧ (∀ k ∈ dc.keys, k < 2 ^ 32) ∧ dc.TotalChunks < 2 ^ 32

instance (dc : DataChunks) : Decidable dc.WellFormed := by
  unfold DataChunks.WellFormed
  infer_instance

/-- Every index of the map holds a chunk (no nil pointer is stored). -/
def DataChunks.AllPresent (dc : DataChunks) : Prop :=
  ∀ e ∈ dc.ChunksData, e.2 ≠ none

instance (dc : DataChunks) : Decidable dc.AllPresent := by
  unfold DataChunks.AllPresent
  infer_instance

/-- The lengths `len(chunk.Data)` of the chunks stored in the map. -/
def DataChunks.byteLengths (dc : DataChunks) : List Nat :=
  (dc.ChunksData.filterMap Prod.snd).map fun c => c.Data.length

/-- The anonymous struct that `DataChunks.MarshalJSON` hands to `json.Marshal`. -/
structure DataChunksJSON where
  /-- Field tagged `totalChunks`. -/
  TotalChunks : Nat
  /-- Field tagged `size`. -/
  CurrentSize : Nat
  /-- Field tagged `chunks`; the nil slice is the empty list. -/
  Chunks : List Nat
  deriving DecidableEq, Repr

/-- The loop `for index, chunk := range dc.ChunksData` of `DataChunks.MarshalJSON`
over the entries still to visit, with the current values of `size` (a `uint64`)
and `chunkIndexes`. Reading `chunk.Data` through a nil pointer panics. -/
def DataChunks.rangeLoop : ChunkMap → Nat → List Nat → Except GoPanic (Nat × List Nat)
  | [], size, chunkIndexes => .ok (size, chunkIndexes)
  | (index, chunk) :: rest, size, chunkIndexes =>
    match chunk with
    | none => .error .nilPointerDereference
    | some c =>
      DataChunks.rangeLoop rest ((size + c.Data.length % 2 ^ 64) % 2 ^ 64)
        (chunkIndexes ++ [index])

/-- The struct value built by `DataChunks.MarshalJSON`: `size` and
`chunkIndexes` start at their zero values. -/
def DataChunks.projection (dc : DataChunks) : Except GoPanic DataChunksJSON :=
  match DataChunks.rangeLoop dc.ChunksData 0 [] with
  | .ok (size, chunkIndexes) => .ok ⟨dc.TotalChunks, size, chunkIndexes⟩
  | .error p => .error p

/-- The value of `json.Marshal` on a `[]uint32`: `null` for the nil slice. -/
def jsonMarshalIndexes : List Nat → GoString
  | [] => "null"
  | ks => "[" ++ ",".intercalate (ks.map toString) ++ "]"

/-- The value of `json.Marshal` on the struct of `DataChunks.MarshalJSON`. -/
def jsonMarshalDataChunks (r : DataChunksJSON) : GoString :=
  "\x7b\"totalChunks\":" ++ toString r.TotalChunks ++ ",\"size\":" ++ toString r.CurrentSize ++
    ",\"chunks\":" ++ jsonMarshalIndexes r.Chunks ++ "\x7d"

/-- Source: `func (dc DataChunks) MarshalJSON() ([]byte, error)`. -/
def DataChunks.MarshalJSON (dc : DataChunks) : Except GoPanic GoString :=
  match dc.projection with
  | .ok r => .ok (jsonMarshalDataChunks r)
  | .error p => .error p

/-! ## Chunk set operations -/

/-- The errors of the chunk set operations. -/
inductive ChunkSetError where
  | IndexOutOfRange
  | IncompleteAssembly
  | UnknownStatusValue
  deriving DecidableEq, Repr

/-- The Go map assignment `m[k] = v`: the value of an existing key is
replaced, a new key gets a new entry. -/
def mapAssign : ChunkMap → Nat → Option Chunk → ChunkMap
  | [], k, v => [(k, v)]
  | (k', v') :: rest, k, v =>
    if k' = k then (k, v) :: rest else (k', v') :: mapAssign rest k v

/-- The Go map lookup `v, ok := m[k]`. -/
def mapLookup : ChunkMap → Nat → Option (Option Chunk)
  | [], _ => none
  | (k', v') :: rest, k => if k' = k then some v' else mapLookup rest k

/-- Modelled from the spec: `create` is not in `model.go` (the file declares
the `DataChunks` struct only). Section 4.1: initializes an empty index mapping
with the declared total. -/
def DataChunks.create (totalChunks : Nat) : DataChunks :=
  { ChunksData := [], TotalChunks := totalChunks }

/-- Modelled from the spec: `insert` is not in `model.go` (the file declares
the `DataChunks` struct only). Section 4.1: fails with `IndexOutOfRange` when
`index ≥ totalChunks`; on success associates `index` with a chunk wrapping
`data`. The association is the map assignment that section 9 reads in the
source, and `IndexOutOfRange` is the only failure of `insert` in the taxonomy
of section 7. The result is paired with the chunk set after the call. -/
def DataChunks.insert (dc : DataChunks) (index : Nat) (data : List UInt8) :
    Except ChunkSetError Unit × DataChunks :=
  if dc.TotalChunks ≤ index then
    (.error .IndexOutOfRange, dc)
  else
    (.ok (), { dc with ChunksData := mapAssign dc.ChunksData index (some ⟨data⟩) })

/-- The chunk set after a sequence of `insert` calls, failed calls included. -/
def DataChunks.insertAll (dc : DataChunks) : List (Nat × List UInt8) → DataChunks
  | [] => dc
  | (index, data) :: rest => DataChunks.insertAll (dc.insert index data).2 rest

/-- A `DataChunks` value with one chunk at index 5 and a declared total of 0. -/
def overfullChunks : DataChunks :=
  { ChunksData := [(5, some ⟨[1]⟩)], TotalChunks := 0 }

/-- The map `{1: "bb", 0: "a"}` with a declared total of 3. -/
def twoChunks : DataChunks :=
  { ChunksData := [(1, some ⟨[98, 98]⟩), (0, some ⟨[97]⟩)], TotalChunks := 3 }

/-- The map `{1: "bb", 0: "a", 2: "ccc"}` with a declared total of 3. -/
def threeChunks : DataChunks :=
  { ChunksData := [(1, some ⟨[98, 98]⟩), (0, some ⟨[97]⟩), (2, some ⟨[99, 99, 99]⟩)],
    TotalChunks := 3 }

/-! ## Cartridge -/

/-- The alphabet of `base64.StdEncoding`. -/
def base64Alphabet : List Char :=
  "ABCDEFGHIJKLMNOPQRSTUVWXYZabcdefghijklmnopqrstuvwxyz0123456789+/".data

/-- The character of `base64.StdEncoding` for a six-bit value. -/
def base64Digit (n : Nat) : Char :=
  (base64Alphabet[n]?).getD 'A'

/-- The characters of `base64.StdEncoding.EncodeToString`: three bytes give
four characters, a remainder of one or two bytes is padded with `=`. -/
def base64Chars : List UInt8 → List Char
  | a :: b :: c :: rest =>
    base64Digit ((a.toNat * 65536 + b.toNat * 256 + c.toNat) / 262144 % 64) ::
    base64Digit ((a.toNat * 65536 + b.toNat * 256 + c.toNat) / 4096 % 64) ::
    base64Digit ((a.toNat * 65536 + b.toNat * 256 + c.toNat) / 64 % 64) ::
    base64Digit ((a.toNat * 65536 + b.toNat * 256 + c.toNat) % 64) :: base64Chars rest
  | [a, b] =>
    [base64Digit ((a.toNat * 65536 + b.toNat * 256) / 262144 % 64),
     base64Digit ((a.toNat * 65536 + b.toNat * 256) / 4096 % 64),
     base64Digit ((a.toNat * 65536 + b.toNat * 256) / 64 % 64), '=']
  | [a] =>
    [base64Digit (a.toNat * 65536 / 262144 % 64),
     base64Digit (a.toNat * 65536 / 4096 % 64), '=', '=']
  | [] => []

/-- The value of `base64.StdEncoding.EncodeToString(bytes)`. -/
def base64StdEncode (bytes : List UInt8) : GoString :=
  String.mk (base64Chars bytes)

/-- Source: `type Cartridge struct`. The type `I` stands for the Go type
`map[string]interface{}` of the field `Info`; a nil `*DataChunks` is `none`. -/
structure Cartridge (I : Type) where
  /-- The identifier. -/
  Id : GoString
  /-- The owner. -/
  UserAddress : GoString
  /-- The free-form metadata. -/
  Info : I
  /-- The creation time, a `uint64`. -/
  CreatedAt : Nat
  /-- The cover image. -/
  Cover : List UInt8
  /-- The chunk set of the cover under assembly. -/
  DataChunks : Option DataChunks
  deriving DecidableEq, Repr

/-- The anonymous struct that `Cartridge.MarshalJSON` hands to `json.Marshal`. -/
structure CartridgeJSON (I : Type) where
  /-- Field tagged `id`. -/
  Id : GoString
  /-- Field tagged `userAddress`. -/
  UserAddress : GoString
  /-- Field tagged `info`. -/
  Info : I
  /-- Field tagged `createdAt`. -/
  CreatedAt : Nat
  /-- Field tagged `cover`. -/
  Cover : GoString
  deriving DecidableEq, Repr

/-- The struct literal `{c.Id, c.UserAddress, c.Info, c.CreatedAt,
base64.StdEncoding.EncodeToString(c.Cover)}` of `Cartridge.MarshalJSON`. -/
def Cartridge.projection {I : Type} (c : Cartridge I) : CartridgeJSON I :=
  ⟨c.Id, c.UserAddress, c.Info, c.CreatedAt, base64StdEncode c.Cover⟩

/-- The value of `json.Marshal` on the struct of `Cartridge.MarshalJSON`: the
fields in declaration order under their tags. The encoding of the `info` value,
which may fail, is the parameter `marshalInfo`. -/
def jsonMarshalCartridge {I E : Type} (marshalInfo : I → Except E GoString)
    (r : CartridgeJSON I) : Except E GoString :=
  match marshalInfo r.Info with
  | .ok info =>
    .ok ("\x7b\"id\":" ++ jsonMarshalString r.Id ++
      ",\"userAddress\":" ++ jsonMarshalString r.UserAddress ++
      ",\"info\":" ++ info ++
      ",\"createdAt\":" ++ toString r.CreatedAt ++
      ",\"cover\":" ++ jsonMarshalString r.Cover ++ "\x7d")
  | .error e => .error e

/-- Source: `func (c Cartridge) MarshalJSON() ([]byte, error)`. -/
def Cartridge.MarshalJSON {I E : Type} (marshalInfo : I → Except E GoString)
    (c : Cartridge I) : Except E GoString :=
  jsonMarshalCartridge marshalInfo c.projection

/-- A cartridge with a nil `Info`, a six-byte cover and a nil `DataChunks`. -/
def plainCartridge : Cartridge Unit :=
  { Id := "c1", UserAddress := "0xab", Info := (), CreatedAt := 7,
    Cover := [102, 111, 111, 98, 97, 114], DataChunks := none }

/-- The cartridge `plainCartridge` with a partial chunk set attached. -/
def assemblingCartridge : Cartridge Unit :=
  { plainCartridge with DataChunks := some twoChunks }

/-- The encoding of a nil `map[string]interface{}`. -/
def marshalNilInfo : Unit → Except Unit GoString :=
  fun _ => .ok "null"

/-! ## Chunk descriptions and completeness -/

/-- Source: `func (c Chunk) String() string`, that is
`fmt.Sprintf("%db", len(c.Data))`: the verb `%d` writes the length, an `int`
that is never negative, in base ten, and the letter `b` follows. -/
def Chunk.String (c : Chunk) : GoString :=
  toString c.Data.length ++ "b"

/-- The number that a sequence of decimal digits denotes, read from the left. -/
def decimalValue (digits : List Char) : Nat :=
  digits.foldl (fun acc d => 10 * acc + (d.toNat - 48)) 0

/-- Modelled from the spec: `isComplete` is not in `model.go` (the file
declares the `DataChunks` struct only). Section 4.1: true iff every index in
`[0, totalChunks)` has an associated chunk. -/
def DataChunks.isComplete (dc : DataChunks) : Bool :=
  (List.range dc.TotalChunks).all fun index =>
    match mapLookup dc.ChunksData index with
    | some (some _) => true
    | _ => false

/-- A `DataChunks` value whose index 0 is mapped to a nil `*Chunk`. -/
def nilChunks : DataChunks :=
  { ChunksData := [(0, none)], TotalChunks := 1 }

/-- A `DataChunks` value with a chunk at index 1 and a nil `*Chunk` at index 0. -/
def halfNilChunks : DataChunks :=
  { ChunksData := [(1, some ⟨[98, 98]⟩), (0, none)], TotalChunks := 3 }

/-! ## Properties of `Status` -/

/-- The guard of `Status.String` fires exactly above the table length. -/
theorem Status.String_of_gt (s : Status) (h : statuses.length < s.val) :
    Status.String s = .ok "STATUS_UNKNOWN" := by
  unfold Status.String
  rw [if_pos h]

/-- A name returned by `Status.String` is an entry of the table or the sentinel. -/
theorem Status.String_ok_mem (s : Status) (name : GoString)
    (h : Status.String s = .ok name) : name ∈ "STATUS_UNKNOWN" :: statuses := by
  unfold Status.String at h
  split at h
  · cases h; exact List.mem_cons_self _ _
  · split at h
    · rename_i n hn
      cases h
      exact List.mem_cons_of_mem _ (List.getElem?_mem hn)
    · cases h

/-- The names that can be rendered need no escaping and are not integers. -/
theorem statuses_plain (name : GoString) (h : name ∈ "STATUS_UNKNOWN" :: statuses) :
    jsonMarshalString name = "\"" ++ name ++ "\"" ∧
    isBareInteger ("\"" ++ name ++ "\"") = false := by
  have hall : ∀ n ∈ "STATUS_UNKNOWN" :: statuses,
      jsonMarshalString n = "\"" ++ n ++ "\"" ∧
      isBareInteger ("\"" ++ n ++ "\"") = false := by decide
  exact hall name h

/-- C1, evaluated at the failing input: at `UnauthorizedUser` (raw value 6) the
guard `len(statuses) < int(s)` is `6 < 6`, so the lookup `statuses[6]` is
reached on a table of length six and `Status.String` panics. -/
theorem Status_String_UnauthorizedUser_panics :
    statuses.length = 6 ∧
    Status.String UnauthorizedUser = .error (.indexOutOfRange 6 6) := by
  decide

/-- C2, evaluated at the failing inputs: the table has no entry for
`ResultHashMismatch`, so every variant after `Success` is rendered with the
name of the next one and the last one panics. -/
theorem Status_String_variants_shifted :
    Status.String Success = .ok "STATUS_SUCCESS" ∧
    Status.String ResultHashMismatch = .ok "STATUS_CARTRIDGE_NOT_FOUND" ∧
    Status.String CartridgeNotFound = .ok "STATUS_CPU_TIME_EXCEEDED" ∧
    Status.String CpuTimeExceeded = .ok "STATUS_KILLED" ∧
    Status.String Killed = .ok "STATUS_RUNTIME_ERROR" ∧
    Status.String RuntimeError = .ok "STATUS_UNAUTHORIZED_USER" ∧
    Status.String UnauthorizedUser = .error (.indexOutOfRange 6 6) := by
  decide

/-- C3: every raw status value from 7 to 255 is rendered as the sentinel
`STATUS_UNKNOWN`, without a panic. -/
theorem Status_String_out_of_range (s : Status) (h : 7 ≤ s.val) :
    s.val ≤ 255 ∧ Status.String s = .ok "STATUS_UNKNOWN" := by
  refine ⟨by omega, Status.String_of_gt s ?_⟩
  have hl : statuses.length = 6 := rfl
  omega

/-- Witness of C3 at the raw value 99. -/
theorem Status_String_out_of_range_witness :
    7 ≤ (99 : Status).val ∧ Status.String 99 = .ok "STATUS_UNKNOWN" :=
  ⟨by decide, (Status_String_out_of_range 99 (by decide)).2⟩

/-- C8: for every status, `Status.MarshalJSON` is `Status.String` followed by
the JSON string encoding: whenever `String` returns a name, `MarshalJSON`
returns that name between double quotes, which is also what the JSON encoder
yields (nothing is escaped), and an output of `MarshalJSON` is never a bare
integer literal and always comes from a name returned by `String`. -/
theorem Status_MarshalJSON_quotes_String (s : Status) :
    (∀ name, Status.String s = .ok name →
      Status.MarshalJSON s = .ok ("\"" ++ name ++ "\"") ∧
      jsonMarshalString name = "\"" ++ name ++ "\"") ∧
    (∀ out, Status.MarshalJSON s = .ok out →
      isBareInteger out = false ∧
      ∃ name, Status.String s = .ok name ∧ out = "\"" ++ name ++ "\"") := by
  constructor
  · intro name h
    have hp := statuses_plain name (Status.String_ok_mem s name h)
    refine ⟨?_, hp.1⟩
    simp only [Status.MarshalJSON, h, hp.1]
  · intro out h
    unfold Status.MarshalJSON at h
    split at h
    · rename_i name hname
      have hp := statuses_plain name (Status.String_ok_mem s name hname)
      cases h
      rw [hp.1]
      exact ⟨hp.2, name, hname, rfl⟩
    · cases h

/-- Witness of C8 at `Killed`. -/
theorem Status_MarshalJSON_quotes_String_witness :
    Status.String Killed = .ok "STATUS_RUNTIME_ERROR" ∧
    Status.MarshalJSON Killed = .ok "\"STATUS_RUNTIME_ERROR\"" :=
  ⟨by decide,
   ((Status_MarshalJSON_quotes_String Killed).1 "STATUS_RUNTIME_ERROR" (by decide)).1⟩


/-! ## Properties of `DataChunks.MarshalJSON` -/

/-- The sum of the chunk lengths of a list of map entries. -/
theorem sum_lengths_cons_some (index : Nat) (c : Chunk) (rest : ChunkMap) :
    ((((index, some c) :: rest).filterMap Prod.snd).map fun c => c.Data.length).sum =
      c.Data.length + (((rest.filterMap Prod.snd).map fun c => c.Data.length).sum) := by
  simp [List.filterMap_cons]

/-- On a map without nil chunks the loop ends with the wrapped sum of the
lengths and with the keys appended in traversal order. -/
theorem DataChunks.rangeLoop_ok (l : ChunkMap) :
    ∀ (size : Nat) (idx : List Nat), size < 2 ^ 64 → (∀ e ∈ l, e.2 ≠ none) →
      DataChunks.rangeLoop l size idx =
        .ok ((size + ((l.filterMap Prod.snd).map fun c => c.Data.length).sum) % 2 ^ 64,
          idx ++ l.map Prod.fst) := by
  induction l with
  | nil =>
    intro size idx hs _
    have hm : size % 2 ^ 64 = size := Nat.mod_eq_of_lt hs
    simp only [DataChunks.rangeLoop, List.filterMap_nil, List.map_nil, List.sum_nil,
      Nat.add_zero, List.append_nil, hm]
  | cons e rest ih =>
    intro size idx hs h
    obtain ⟨index, chunk⟩ := e
    cases chunk with
    | none => exact absurd rfl (h (index, none) (List.mem_cons_self _ _))
    | some c =>
      have hrest : ∀ e ∈ rest, e.2 ≠ none := fun e he => h e (List.mem_cons_of_mem _ he)
      rw [DataChunks.rangeLoop, ih _ _ (Nat.mod_lt _ (by norm_num)) hrest,
        sum_lengths_cons_some]
      simp only [List.map_cons, List.append_assoc, List.singleton_append]
      congr 2
      rw [Nat.add_mod_mod, Nat.mod_add_mod, Nat.add_assoc]

/-- On a map with a nil chunk the loop panics. -/
theorem DataChunks.rangeLoop_nil (l : ChunkMap) :
    ∀ (size : Nat) (idx : List Nat), (∃ e ∈ l, e.2 = none) →
      DataChunks.rangeLoop l size idx = .error .nilPointerDereference := by
  induction l with
  | nil =>
    intro size idx h
    obtain ⟨e, he, _⟩ := h
    cases he
  | cons e rest ih =>
    intro size idx h
    obtain ⟨index, chunk⟩ := e
    cases chunk with
    | none => rfl
    | some c =>
      rw [DataChunks.rangeLoop]
      apply ih
      obtain ⟨e, he, hn⟩ := h
      rcases List.mem_cons.1 he with rfl | he
      · cases hn
      · exact ⟨e, he, hn⟩

/-- The struct marshalled for a chunk set without nil chunks. -/
theorem DataChunks.projection_ok (dc : DataChunks) (h : dc.AllPresent) :
    dc.projection = .ok ⟨dc.TotalChunks, dc.byteLengths.sum % 2 ^ 64, dc.keys⟩ := by
  unfold DataChunks.projection
  rw [DataChunks.rangeLoop_ok dc.ChunksData 0 [] (by norm_num) h]
  simp [DataChunks.byteLengths, DataChunks.keys]

/-- The struct marshalled for a chunk set with a nil chunk: none, a panic. -/
theorem DataChunks.projection_nil (dc : DataChunks) (h : ¬ dc.AllPresent) :
    dc.projection = .error .nilPointerDereference := by
  unfold DataChunks.projection
  rw [DataChunks.rangeLoop_nil dc.ChunksData 0 []]
  unfold DataChunks.AllPresent at h
  push_neg at h
  exact h


/-- The sum of the chunk lengths does not depend on the traversal order. -/
theorem byteLengths_sum_perm (l₁ l₂ : ChunkMap) (T₁ T₂ : Nat) (hp : l₁.Perm l₂) :
    (DataChunks.mk l₁ T₁).byteLengths.sum = (DataChunks.mk l₂ T₂).byteLengths.sum := by
  unfold DataChunks.byteLengths
  exact ((hp.filterMap Prod.snd).map _).sum_eq

/-- Holding no nil chunk does not depend on the traversal order. -/
theorem allPresent_perm (l₁ l₂ : ChunkMap) (T₁ T₂ : Nat) (hp : l₁.Perm l₂)
    (h : (DataChunks.mk l₁ T₁).AllPresent) : (DataChunks.mk l₂ T₂).AllPresent :=
  fun e he => h e (hp.mem_iff.2 he)

/-- C4: for a chunk set all of whose chunks are present, `DataChunks.MarshalJSON`
marshals a struct whose `size` is the sum of `len(chunk.Data)` over the chunks
of the map, accumulated as a `uint64` (the sum itself when it fits in 64 bits);
for the map `{1: "bb", 0: "a"}` it is 3, for `{1: "bb", 0: "a", 2: "ccc"}` it is
6, in every traversal order, and for the empty map it is 0. -/
theorem DataChunks_MarshalJSON_size :
    (∀ dc : DataChunks, dc.AllPresent →
      ∃ r, dc.projection = .ok r ∧ dc.MarshalJSON = .ok (jsonMarshalDataChunks r) ∧
        r.CurrentSize = dc.byteLengths.sum % 2 ^ 64 ∧
        (dc.byteLengths.sum < 2 ^ 64 → r.CurrentSize = dc.byteLengths.sum)) ∧
    (∀ (l : ChunkMap) (T : Nat), l.Perm twoChunks.ChunksData →
      ∃ r, (DataChunks.mk l T).projection = .ok r ∧ r.CurrentSize = 3) ∧
    (∀ (l : ChunkMap) (T : Nat), l.Perm threeChunks.ChunksData →
      ∃ r, (DataChunks.mk l T).projection = .ok r ∧ r.CurrentSize = 6) ∧
    (∀ T : Nat, ∃ r, (DataChunks.mk [] T).projection = .ok r ∧ r.CurrentSize = 0) := by
  refine ⟨?_, ?_, ?_, ?_⟩
  · intro dc h
    refine ⟨_, DataChunks.projection_ok dc h, ?_, rfl, fun hlt => Nat.mod_eq_of_lt hlt⟩
    simp only [DataChunks.MarshalJSON, DataChunks.projection_ok dc h]
  · intro l T hp
    have hall : (DataChunks.mk l T).AllPresent :=
      allPresent_perm _ _ twoChunks.TotalChunks T hp.symm (by decide)
    refine ⟨_, DataChunks.projection_ok _ hall, ?_⟩
    show (DataChunks.mk l T).byteLengths.sum % 2 ^ 64 = 3
    rw [byteLengths_sum_perm l twoChunks.ChunksData T twoChunks.TotalChunks hp]
    decide
  · intro l T hp
    have hall : (DataChunks.mk l T).AllPresent :=
      allPresent_perm _ _ threeChunks.TotalChunks T hp.symm (by decide)
    refine ⟨_, DataChunks.projection_ok _ hall, ?_⟩
    show (DataChunks.mk l T).byteLengths.sum % 2 ^ 64 = 6
    rw [byteLengths_sum_perm l threeChunks.ChunksData T threeChunks.TotalChunks hp]
    decide
  · intro T
    exact ⟨_, rfl, rfl⟩

/-- Witness of C4 at the map `{1: "bb", 0: "a"}`. -/
theorem DataChunks_MarshalJSON_size_witness :
    twoChunks.AllPresent ∧
    ∃ r, twoChunks.projection = .ok r ∧
      twoChunks.MarshalJSON = .ok (jsonMarshalDataChunks r) ∧
      r.CurrentSize = twoChunks.byteLengths.sum % 2 ^ 64 ∧
      (twoChunks.byteLengths.sum < 2 ^ 64 → r.CurrentSize = twoChunks.byteLengths.sum) :=
  ⟨by decide, DataChunks_MarshalJSON_size.1 twoChunks (by decide)⟩

/-- C5, refuted as stated: `halfNilChunks` is a value of the `DataChunks` type
with the keys 1 and 0 whose index 0 is mapped to a nil `*Chunk`;
`DataChunks.MarshalJSON` panics on it, so no index sequence is reported and
neither key appears in any output. -/
theorem DataChunks_MarshalJSON_indexes_nil_chunk :
    halfNilChunks.WellFormed ∧
    halfNilChunks.keys = [1, 0] ∧
    halfNilChunks.MarshalJSON = .error .nilPointerDereference ∧
    (∀ out, halfNilChunks.MarshalJSON ≠ .ok out) ∧
    (∀ r, halfNilChunks.projection ≠ .ok r) := by
  have hm : halfNilChunks.MarshalJSON = .error .nilPointerDereference := by decide
  have hp : halfNilChunks.projection = .error .nilPointerDereference := by decide
  refine ⟨by decide, by decide, hm, ?_, ?_⟩
  · intro out h
    rw [hm] at h
    cases h
  · intro r h
    rw [hp] at h
    cases h

/-- C5, amended: for every `DataChunks` value in which no index is mapped to a
nil `*Chunk`, `DataChunks.MarshalJSON` returns the JSON text of a struct whose
`chunks` sequence is the key sequence of `ChunksData`: it has one element per
map entry, a number occurs in it exactly once when it is a key and not at all
otherwise. `DataChunks.MarshalJSON` returns a text for such values only, and
every struct it builds has this `chunks` sequence. -/
theorem DataChunks_MarshalJSON_indexes (dc : DataChunks) (hwf : dc.WellFormed) :
    (dc.AllPresent →
      ∃ r, dc.projection = .ok r ∧ dc.MarshalJSON = .ok (jsonMarshalDataChunks r) ∧
        r.Chunks = dc.keys ∧
        r.Chunks.length = dc.ChunksData.length ∧
        (∀ k, k ∈ r.Chunks ↔ k ∈ dc.keys) ∧
        (∀ k, k ∈ dc.keys → r.Chunks.count k = 1) ∧
        (∀ k, k ∉ dc.keys → r.Chunks.count k = 0)) ∧
    (∀ out, dc.MarshalJSON = .ok out → dc.AllPresent) ∧
    ∀ r, dc.projection = .ok r →
      r.Chunks = dc.keys ∧
      r.Chunks.length = dc.ChunksData.length ∧
      (∀ k, k ∈ r.Chunks ↔ k ∈ dc.keys) ∧
      (∀ k, k ∈ dc.keys → r.Chunks.count k = 1) ∧
      (∀ k, k ∉ dc.keys → r.Chunks.count k = 0) := by
  have hkeys : dc.keys.length = dc.ChunksData.length := by simp [DataChunks.keys]
  have hone : ∀ k, k ∈ dc.keys → dc.keys.count k = 1 :=
    fun k hk => List.count_eq_one_of_mem hwf.1 hk
  have hzero : ∀ k, k ∉ dc.keys → dc.keys.count k = 0 :=
    fun k hk => List.count_eq_zero_of_not_mem hk
  refine ⟨?_, ?_, ?_⟩
  · intro h
    refine ⟨_, DataChunks.projection_ok dc h, ?_, rfl, hkeys, fun k => Iff.rfl, hone, hzero⟩
    simp only [DataChunks.MarshalJSON, DataChunks.projection_ok dc h]
  · intro out hout
    by_contra h
    simp only [DataChunks.MarshalJSON, DataChunks.projection_nil dc h] at hout
    cases hout
  · intro r hr
    by_cases h : dc.AllPresent
    · rw [DataChunks.projection_ok dc h] at hr
      cases hr
      exact ⟨rfl, hkeys, fun k => Iff.rfl, hone, hzero⟩
    · rw [DataChunks.projection_nil dc h] at hr
      cases hr

/-- Witness of C5, amended, at the map `{1: "bb", 0: "a", 2: "ccc"}`. -/
theorem DataChunks_MarshalJSON_indexes_witness :
    threeChunks.WellFormed ∧ threeChunks.AllPresent ∧
    threeChunks.MarshalJSON =
      .ok "\x7b\"totalChunks\":3,\"size\":6,\"chunks\":[1,0,2]\x7d" ∧
    threeChunks.projection = .ok ⟨3, 6, [1, 0, 2]⟩ ∧
    ([1, 0, 2] : List Nat) = threeChunks.keys ∧
    ∃ r, threeChunks.projection = .ok r ∧
      threeChunks.MarshalJSON = .ok (jsonMarshalDataChunks r) ∧
      r.Chunks = threeChunks.keys ∧
      r.Chunks.length = threeChunks.ChunksData.length ∧
      (∀ k, k ∈ r.Chunks ↔ k ∈ threeChunks.keys) ∧
      (∀ k, k ∈ threeChunks.keys → r.Chunks.count k = 1) ∧
      (∀ k, k ∉ threeChunks.keys → r.Chunks.count k = 0) :=
  ⟨by decide, by decide, by decide, by decide, by decide,
   (DataChunks_MarshalJSON_indexes threeChunks (by decide)).1 (by decide)⟩

/-- C6: two traversal orders of the same map give the same outcome of
`DataChunks.MarshalJSON`: either both panic on a nil chunk, or both build a
struct, with the same `size` and with `chunks` sequences that are permutations
of one another, hence with the same elements. -/
theorem DataChunks_MarshalJSON_order_independent (l₁ l₂ : ChunkMap) (T : Nat)
    (hp : l₁.Perm l₂) :
    ((DataChunks.mk l₁ T).projection = .error .nilPointerDereference ∧
      (DataChunks.mk l₂ T).projection = .error .nilPointerDereference) ∨
    ∃ r₁ r₂, (DataChunks.mk l₁ T).projection = .ok r₁ ∧
      (DataChunks.mk l₂ T).projection = .ok r₂ ∧
      r₁.TotalChunks = r₂.TotalChunks ∧
      r₁.CurrentSize = r₂.CurrentSize ∧
      r₁.Chunks.Perm r₂.Chunks ∧
      ∀ k, k ∈ r₁.Chunks ↔ k ∈ r₂.Chunks := by
  by_cases h : (DataChunks.mk l₁ T).AllPresent
  · have h' := allPresent_perm l₁ l₂ T T hp h
    have hk : (DataChunks.mk l₁ T).keys.Perm (DataChunks.mk l₂ T).keys := hp.map Prod.fst
    refine Or.inr ⟨_, _, DataChunks.projection_ok _ h, DataChunks.projection_ok _ h', rfl,
      ?_, hk, fun k => hk.mem_iff⟩
    show _ % 2 ^ 64 = _ % 2 ^ 64
    rw [byteLengths_sum_perm l₁ l₂ T T hp]
  · have h' : ¬ (DataChunks.mk l₂ T).AllPresent :=
      fun h2 => h (allPresent_perm l₂ l₁ T T hp.symm h2)
    exact Or.inl ⟨DataChunks.projection_nil _ h, DataChunks.projection_nil _ h'⟩

/-- Witness of C6 at the two orders of the map `{1: "bb", 0: "a"}`. -/
theorem DataChunks_MarshalJSON_order_independent_witness :
    (DataChunks.mk [(1, some ⟨[98, 98]⟩), (0, some ⟨[97]⟩)] 3).projection =
      .ok ⟨3, 3, [1, 0]⟩ ∧
    (DataChunks.mk [(0, some ⟨[97]⟩), (1, some ⟨[98, 98]⟩)] 3).projection =
      .ok ⟨3, 3, [0, 1]⟩ ∧
    (((DataChunks.mk [(1, some ⟨[98, 98]⟩), (0, some ⟨[97]⟩)] 3).projection =
        .error .nilPointerDereference ∧
      (DataChunks.mk [(0, some ⟨[97]⟩), (1, some ⟨[98, 98]⟩)] 3).projection =
        .error .nilPointerDereference) ∨
    ∃ r₁ r₂, (DataChunks.mk [(1, some ⟨[98, 98]⟩), (0, some ⟨[97]⟩)] 3).projection = .ok r₁ ∧
      (DataChunks.mk [(0, some ⟨[97]⟩), (1, some ⟨[98, 98]⟩)] 3).projection = .ok r₂ ∧
      r₁.TotalChunks = r₂.TotalChunks ∧
      r₁.CurrentSize = r₂.CurrentSize ∧
      r₁.Chunks.Perm r₂.Chunks ∧
      ∀ k, k ∈ r₁.Chunks ↔ k ∈ r₂.Chunks) :=
  ⟨by decide, by decide,
   DataChunks_MarshalJSON_order_independent _ _ 3 (List.Perm.swap _ _ [])⟩


/-! ## Properties of the chunk set operations -/

/-- The keys after a map assignment: unchanged for an existing key, one more
for a new key. -/
theorem mapAssign_keys (l : ChunkMap) (k : Nat) (v : Option Chunk) :
    (mapAssign l k v).map Prod.fst =
      if k ∈ l.map Prod.fst then l.map Prod.fst else l.map Prod.fst ++ [k] := by
  induction l with
  | nil => simp [mapAssign]
  | cons e rest ih =>
    obtain ⟨k', v'⟩ := e
    unfold mapAssign
    by_cases hk : k' = k
    · subst hk
      simp
    · have hk' : ¬ k = k' := fun h => hk h.symm
      simp only [if_neg hk, List.map_cons, ih, List.mem_cons, hk', false_or]
      split <;> simp

/-- A map assignment is read back by a lookup of the same key. -/
theorem mapLookup_mapAssign_self (l : ChunkMap) (k : Nat) (v : Option Chunk) :
    mapLookup (mapAssign l k v) k = some v := by
  induction l with
  | nil => simp [mapAssign, mapLookup]
  | cons e rest ih =>
    obtain ⟨k', v'⟩ := e
    unfold mapAssign
    by_cases hk : k' = k
    · simp [hk, mapLookup]
    · simp [hk, mapLookup, ih]

/-- A map assignment leaves the other keys as they were. -/
theorem mapLookup_mapAssign_other (l : ChunkMap) (k j : Nat) (v : Option Chunk)
    (hj : j ≠ k) : mapLookup (mapAssign l k v) j = mapLookup l j := by
  induction l with
  | nil =>
    have hkj : ¬ k = j := fun h => hj h.symm
    simp [mapAssign, mapLookup, hkj]
  | cons e rest ih =>
    obtain ⟨k', v'⟩ := e
    unfold mapAssign
    by_cases hk : k' = k
    · subst hk
      have hkj : ¬ k' = j := fun h => hj h.symm
      simp [mapLookup, hkj]
    · simp only [if_neg hk, mapLookup, ih]

/-- The number of entries after a map assignment. -/
theorem mapAssign_length (l : ChunkMap) (k : Nat) (v : Option Chunk) :
    (mapAssign l k v).length =
      if k ∈ l.map Prod.fst then l.length else l.length + 1 := by
  have h := congrArg List.length (mapAssign_keys l k v)
  rw [List.length_map] at h
  rw [h]
  split <;> simp

/-- Distinct keys all below a bound are at most as many as the bound. -/
theorem length_le_of_nodup_of_lt (ks : List Nat) (n : Nat) (hd : ks.Nodup)
    (hlt : ∀ k ∈ ks, k < n) : ks.length ≤ n := by
  have hsub : ks ⊆ List.range n := fun k hk => List.mem_range.2 (hlt k hk)
  have := (List.subperm_of_subset hd hsub).length_le
  simpa using this

/-- An `insert` keeps the keys distinct and below the declared total, and keeps
the declared total. -/
theorem DataChunks.insert_keeps (dc : DataChunks) (index : Nat) (data : List UInt8)
    (hd : dc.keys.Nodup) (hlt : ∀ k ∈ dc.keys, k < dc.TotalChunks) :
    (dc.insert index data).2.TotalChunks = dc.TotalChunks ∧
    (dc.insert index data).2.keys.Nodup ∧
    ∀ k ∈ (dc.insert index data).2.keys, k < dc.TotalChunks := by
  by_cases hi : dc.TotalChunks ≤ index
  · have e : dc.insert index data = (.error .IndexOutOfRange, dc) := by
      simp only [DataChunks.insert, if_pos hi]
    rw [e]
    exact ⟨rfl, hd, hlt⟩
  · have e : dc.insert index data =
        (.ok (), { dc with ChunksData := mapAssign dc.ChunksData index (some ⟨data⟩) }) := by
      simp only [DataChunks.insert, if_neg hi]
    rw [e]
    have hk := mapAssign_keys dc.ChunksData index (some ⟨data⟩)
    refine ⟨rfl, ?_, ?_⟩
    · show (List.map Prod.fst (mapAssign dc.ChunksData index (some ⟨data⟩))).Nodup
      rw [hk]
      split
      · exact hd
      · rename_i hnew
        refine List.Nodup.append hd (List.nodup_singleton _) ?_
        intro a ha hs
        rw [List.mem_singleton.1 hs] at ha
        exact hnew ha
    · intro k hk'
      change k ∈ List.map Prod.fst (mapAssign dc.ChunksData index (some ⟨data⟩)) at hk'
      rw [hk] at hk'
      split at hk'
      · exact hlt k hk'
      · rcases List.mem_append.1 hk' with h | h
        · exact hlt k h
        · rw [List.mem_singleton.1 h]
          omega

/-- After any sequence of `insert` calls the keys are distinct and below the
declared total, which is the one the sequence started with. -/
theorem DataChunks.insertAll_keeps (calls : List (Nat × List UInt8)) :
    ∀ dc : DataChunks, dc.keys.Nodup → (∀ k ∈ dc.keys, k < dc.TotalChunks) →
      (dc.insertAll calls).TotalChunks = dc.TotalChunks ∧
      (dc.insertAll calls).keys.Nodup ∧
      ∀ k ∈ (dc.insertAll calls).keys, k < dc.TotalChunks := by
  induction calls with
  | nil => intro dc hd hlt; exact ⟨rfl, hd, hlt⟩
  | cons call rest ih =>
    intro dc hd hlt
    obtain ⟨index, data⟩ := call
    obtain ⟨ht, hd', hlt'⟩ := DataChunks.insert_keeps dc index data hd hlt
    have := ih (dc.insert index data).2 hd' (by rw [ht]; exact hlt')
    rw [ht] at this
    exact this

/-- C7, refuted as stated: `overfullChunks` is a value of the `DataChunks` type
(distinct `uint32` keys, a `uint32` total) that holds one chunk, at index 5,
against a declared total of 0. -/
theorem DataChunks_type_admits_overfull :
    overfullChunks.WellFormed ∧
    ¬ (overfullChunks.ChunksData.length ≤ overfullChunks.TotalChunks) ∧
    ¬ (∀ k ∈ overfullChunks.keys, k < overfullChunks.TotalChunks) := by
  decide

/-- C7, amended: a value of the `DataChunks` type is only bound by its types
(distinct `uint32` keys, hence at most `2 ^ 32` entries, whatever `TotalChunks`
is), while a chunk set obtained from `create totalChunks` by any sequence of
`insert` calls keeps its declared total, holds at most that many entries, and
all its keys are distinct and smaller than the declared total. -/
theorem DataChunks_insertAll_within_total :
    (∀ dc : DataChunks, dc.WellFormed →
      0 ≤ dc.ChunksData.length ∧ dc.ChunksData.length ≤ 2 ^ 32) ∧
    ∀ (totalChunks : Nat) (calls : List (Nat × List UInt8)),
      ((DataChunks.create totalChunks).insertAll calls).TotalChunks = totalChunks ∧
      0 ≤ ((DataChunks.create totalChunks).insertAll calls).ChunksData.length ∧
      ((DataChunks.create totalChunks).insertAll calls).ChunksData.length ≤
        ((DataChunks.create totalChunks).insertAll calls).TotalChunks ∧
      (∀ k ∈ ((DataChunks.create totalChunks).insertAll calls).keys,
        k < ((DataChunks.create totalChunks).insertAll calls).TotalChunks) ∧
      ((DataChunks.create totalChunks).insertAll calls).keys.Nodup := by
  constructor
  · intro dc hwf
    have := length_le_of_nodup_of_lt dc.keys (2 ^ 32) hwf.1 hwf.2.1
    exact ⟨Nat.zero_le _, by simpa [DataChunks.keys] using this⟩
  · intro totalChunks calls
    obtain ⟨ht, hd, hlt⟩ := DataChunks.insertAll_keeps calls (DataChunks.create totalChunks)
      (by simp [DataChunks.create, DataChunks.keys])
      (by simp [DataChunks.create, DataChunks.keys])
    have ht' : ((DataChunks.create totalChunks).insertAll calls).TotalChunks = totalChunks := ht
    rw [ht']
    refine ⟨rfl, Nat.zero_le _, ?_, hlt, hd⟩
    have := length_le_of_nodup_of_lt _ totalChunks hd hlt
    simpa [DataChunks.keys] using this

/-- Witness of C7, amended: `overfullChunks` is within the bound of its types,
and a chunk set created with total 3 holds two entries after four `insert`
calls, one beyond the total and one on an index already filled. -/
theorem DataChunks_insertAll_within_total_witness :
    overfullChunks.WellFormed ∧ overfullChunks.ChunksData.length ≤ 2 ^ 32 ∧
    ((DataChunks.create 3).insertAll
      [(1, [98, 98]), (0, [97]), (5, [1]), (1, [3])]).ChunksData.length = 2 ∧
    ((DataChunks.create 3).insertAll
      [(1, [98, 98]), (0, [97]), (5, [1]), (1, [3])]).ChunksData.length ≤
      ((DataChunks.create 3).insertAll
        [(1, [98, 98]), (0, [97]), (5, [1]), (1, [3])]).TotalChunks :=
  ⟨by decide, (DataChunks_insertAll_within_total.1 overfullChunks (by decide)).2,
   by decide,
   (DataChunks_insertAll_within_total.2 3 [(1, [98, 98]), (0, [97]), (5, [1]), (1, [3])]).2.2.1⟩

/-- C10: `insert` at an index not below the declared total fails with
`IndexOutOfRange` and returns the chunk set unchanged; at an index below the
declared total it succeeds, keeps the declared total, associates the index with
the chunk wrapping the data, leaves every other index as it was, and the number
of entries stays or grows by one. -/
theorem DataChunks_insert_spec (dc : DataChunks) (index : Nat) (data : List UInt8) :
    (dc.TotalChunks ≤ index →
      dc.insert index data = (.error .IndexOutOfRange, dc)) ∧
    (index < dc.TotalChunks →
      (dc.insert index data).1 = .ok () ∧
      (dc.insert index data).2.TotalChunks = dc.TotalChunks ∧
      mapLookup (dc.insert index data).2.ChunksData index = some (some ⟨data⟩) ∧
      (∀ k, k ≠ index →
        mapLookup (dc.insert index data).2.ChunksData k = mapLookup dc.ChunksData k) ∧
      dc.ChunksData.length ≤ (dc.insert index data).2.ChunksData.length ∧
      (dc.insert index data).2.ChunksData.length ≤ dc.ChunksData.length + 1) := by
  constructor
  · intro h
    simp only [DataChunks.insert, if_pos h]
  · intro h
    have hn : ¬ dc.TotalChunks ≤ index := by omega
    have e : dc.insert index data =
        (.ok (), { dc with ChunksData := mapAssign dc.ChunksData index (some ⟨data⟩) }) := by
      simp only [DataChunks.insert, if_neg hn]
    rw [e]
    refine ⟨rfl, rfl, mapLookup_mapAssign_self _ _ _,
      fun k hk => mapLookup_mapAssign_other _ _ _ _ hk, ?_, ?_⟩
    · show dc.ChunksData.length ≤ (mapAssign dc.ChunksData index (some ⟨data⟩)).length
      rw [mapAssign_length]
      split <;> omega
    · show (mapAssign dc.ChunksData index (some ⟨data⟩)).length ≤ dc.ChunksData.length + 1
      rw [mapAssign_length]
      split <;> omega

/-- Witness of C10: on `twoChunks` (declared total 3) an insert at index 3
fails and an insert at index 2 adds the chunk. -/
theorem DataChunks_insert_spec_witness :
    twoChunks.TotalChunks ≤ 3 ∧ 2 < twoChunks.TotalChunks ∧
    twoChunks.insert 3 [99] = (.error .IndexOutOfRange, twoChunks) ∧
    (twoChunks.insert 2 [99, 99, 99]).1 = .ok () ∧
    (twoChunks.insert 2 [99, 99, 99]).2 = threeChunks :=
  ⟨by decide, by decide, (DataChunks_insert_spec twoChunks 3 [99]).1 (by decide),
   ((DataChunks_insert_spec twoChunks 2 [99, 99, 99]).2 (by decide)).1, by decide⟩


/-! ## Properties of `Cartridge.MarshalJSON` -/

/-- A base64 digit is a character of the alphabet. -/
theorem base64Digit_mem (n : Nat) : base64Digit n ∈ base64Alphabet := by
  unfold base64Digit
  cases h : base64Alphabet[n]? with
  | none => decide
  | some c => exact List.getElem?_mem h

/-- The encoder writes characters of the alphabet and the padding only. -/
theorem base64Chars_mem (bytes : List UInt8) :
    ∀ c ∈ base64Chars bytes, c ∈ '=' :: base64Alphabet := by
  induction bytes using base64Chars.induct with
  | case1 a b c rest ih =>
    intro x hx
    simp only [base64Chars, List.mem_cons] at hx
    rcases hx with h | h | h | h | h
    · exact h ▸ List.mem_cons_of_mem _ (base64Digit_mem _)
    · exact h ▸ List.mem_cons_of_mem _ (base64Digit_mem _)
    · exact h ▸ List.mem_cons_of_mem _ (base64Digit_mem _)
    · exact h ▸ List.mem_cons_of_mem _ (base64Digit_mem _)
    · exact ih x h
  | case2 a b =>
    intro x hx
    simp only [base64Chars, List.mem_cons, List.not_mem_nil, or_false] at hx
    rcases hx with h | h | h | h
    · exact h ▸ List.mem_cons_of_mem _ (base64Digit_mem _)
    · exact h ▸ List.mem_cons_of_mem _ (base64Digit_mem _)
    · exact h ▸ List.mem_cons_of_mem _ (base64Digit_mem _)
    · exact h ▸ List.mem_cons_self _ _
  | case3 a =>
    intro x hx
    simp only [base64Chars, List.mem_cons, List.not_mem_nil, or_false] at hx
    rcases hx with h | h | h | h
    · exact h ▸ List.mem_cons_of_mem _ (base64Digit_mem _)
    · exact h ▸ List.mem_cons_of_mem _ (base64Digit_mem _)
    · exact h ▸ List.mem_cons_self _ _
    · exact h ▸ List.mem_cons_self _ _
  | case4 =>
    intro x hx
    simp [base64Chars] at hx

/-- Characters that the JSON encoder copies are copied in a row. -/
theorem flatMap_jsonEscapeChar_of_plain (cs : List Char)
    (h : ∀ c ∈ cs, jsonEscapeChar c = [c]) : cs.flatMap jsonEscapeChar = cs := by
  induction cs with
  | nil => rfl
  | cons c rest ih =>
    rw [List.flatMap_cons, h c (List.mem_cons_self _ _),
      ih fun x hx => h x (List.mem_cons_of_mem _ hx)]
    rfl

set_option maxRecDepth 8000 in
/-- The JSON encoder copies the base64 characters unescaped. -/
theorem jsonEscapeChar_base64 :
    ∀ c ∈ '=' :: base64Alphabet, jsonEscapeChar c = [c] := by
  decide

/-- A base64 text is marshalled between double quotes as it is. -/
theorem jsonMarshalString_base64 (bytes : List UInt8) :
    jsonMarshalString (base64StdEncode bytes) = "\"" ++ base64StdEncode bytes ++ "\"" := by
  unfold jsonMarshalString base64StdEncode
  rw [flatMap_jsonEscapeChar_of_plain _
    fun c hc => jsonEscapeChar_base64 c (base64Chars_mem bytes c hc)]
  rfl

/-- RFC 4648 test vectors of the base64 encoder. -/
theorem base64StdEncode_vectors :
    base64StdEncode [] = "" ∧
    base64StdEncode [102] = "Zg==" ∧
    base64StdEncode [102, 111] = "Zm8=" ∧
    base64StdEncode [102, 111, 111] = "Zm9v" ∧
    base64StdEncode [102, 111, 111, 98] = "Zm9vYg==" ∧
    base64StdEncode [102, 111, 111, 98, 97] = "Zm9vYmE=" ∧
    base64StdEncode [102, 111, 111, 98, 97, 114] = "Zm9vYmFy" := by
  decide

/-- C9: two cartridges that agree on `Id`, `UserAddress`, `Info`, `CreatedAt`
and `Cover` have the same `Cartridge.MarshalJSON` result, whatever their
`DataChunks` are; the marshalled struct has the five fields `id`,
`userAddress`, `info`, `createdAt` and `cover` and no other, its `cover` is the
standard base64 encoding of `Cover`, and when the `info` value can be encoded
the result is the JSON object of exactly these five members, in this order. -/
theorem Cartridge_MarshalJSON_ignores_DataChunks {I E : Type}
    (marshalInfo : I → Except E GoString) (c₁ c₂ : Cartridge I)
    (hId : c₁.Id = c₂.Id) (hUser : c₁.UserAddress = c₂.UserAddress)
    (hInfo : c₁.Info = c₂.Info) (hCreated : c₁.CreatedAt = c₂.CreatedAt)
    (hCover : c₁.Cover = c₂.Cover) :
    Cartridge.MarshalJSON marshalInfo c₁ = Cartridge.MarshalJSON marshalInfo c₂ ∧
    c₁.projection = c₂.projection ∧
    c₁.projection =
      ⟨c₁.Id, c₁.UserAddress, c₁.Info, c₁.CreatedAt, base64StdEncode c₁.Cover⟩ ∧
    (∀ e, marshalInfo c₁.Info = .error e →
      Cartridge.MarshalJSON marshalInfo c₁ = .error e) ∧
    (∀ info, marshalInfo c₁.Info = .ok info →
      Cartridge.MarshalJSON marshalInfo c₁ =
        .ok ("\x7b\"id\":" ++ jsonMarshalString c₁.Id ++
          ",\"userAddress\":" ++ jsonMarshalString c₁.UserAddress ++
          ",\"info\":" ++ info ++
          ",\"createdAt\":" ++ toString c₁.CreatedAt ++
          ",\"cover\":" ++ ("\"" ++ base64StdEncode c₁.Cover ++ "\"") ++ "\x7d")) := by
  have hp : c₁.projection = c₂.projection := by
    simp only [Cartridge.projection, hId, hUser, hInfo, hCreated, hCover]
  refine ⟨?_, hp, rfl, ?_, ?_⟩
  · simp only [Cartridge.MarshalJSON, hp]
  · intro e he
    simp only [Cartridge.MarshalJSON, jsonMarshalCartridge, Cartridge.projection, he]
  · intro info hinfo
    simp only [Cartridge.MarshalJSON, jsonMarshalCartridge, Cartridge.projection, hinfo,
      jsonMarshalString_base64]

set_option maxRecDepth 8000 in
/-- Witness of C9: a cartridge without chunk set and the same cartridge with a
partial chunk set are marshalled to the same JSON object. -/
theorem Cartridge_MarshalJSON_ignores_DataChunks_witness :
    plainCartridge.DataChunks ≠ assemblingCartridge.DataChunks ∧
    Cartridge.MarshalJSON marshalNilInfo assemblingCartridge =
      .ok ("\x7b\"id\":\"c1\",\"userAddress\":\"0xab\",\"info\":null," ++
        "\"createdAt\":7,\"cover\":\"Zm9vYmFy\"\x7d") ∧
    Cartridge.MarshalJSON marshalNilInfo plainCartridge =
      Cartridge.MarshalJSON marshalNilInfo assemblingCartridge :=
  ⟨by decide, by decide,
   (Cartridge_MarshalJSON_ignores_DataChunks marshalNilInfo plainCartridge
      assemblingCartridge rfl rfl rfl rfl rfl).1⟩


/-! ## Properties of `Chunk.String` -/

/-- The character of a decimal digit is a digit and denotes it. -/
theorem digitChar_decimal (k : Nat) (hk : k < 10) :
    (Nat.digitChar k).toNat - 48 = k ∧ (Nat.digitChar k).isDigit = true := by
  interval_cases k <;> decide

/-- Reading back the digits written by `Nat.toDigitsCore` in base ten gives the
number, followed by the reading of the digits already written. -/
theorem toDigitsCore_decimalValue (fuel : Nat) :
    ∀ (n : Nat) (ds : List Char), n < fuel →
      (Nat.toDigitsCore 10 fuel n ds).foldl (fun acc d => 10 * acc + (d.toNat - 48)) 0 =
        ds.foldl (fun acc d => 10 * acc + (d.toNat - 48)) n := by
  induction fuel with
  | zero => intro n ds h; omega
  | succ fuel ih =>
    intro n ds h
    have hd := (digitChar_decimal (n % 10) (Nat.mod_lt _ (by norm_num))).1
    unfold Nat.toDigitsCore
    by_cases h0 : n / 10 = 0
    · simp only [h0, if_true, List.foldl_cons, hd]
      congr 1
      omega
    · simp only [h0, if_false]
      rw [ih (n / 10) _ (by omega), List.foldl_cons, hd]
      congr 1
      omega

/-- The digits written by `Nat.toDigitsCore` in base ten are decimal digits. -/
theorem toDigitsCore_isDigit (fuel : Nat) :
    ∀ (n : Nat) (ds : List Char), (∀ c ∈ ds, c.isDigit = true) →
      ∀ c ∈ Nat.toDigitsCore 10 fuel n ds, c.isDigit = true := by
  induction fuel with
  | zero => intro n ds h c hc; exact h c hc
  | succ fuel ih =>
    intro n ds h
    have hd := (digitChar_decimal (n % 10) (Nat.mod_lt _ (by norm_num))).2
    have hds : ∀ c ∈ Nat.digitChar (n % 10) :: ds, c.isDigit = true := by
      intro c hc
      rcases List.mem_cons.1 hc with rfl | hc
      · exact hd
      · exact h c hc
    unfold Nat.toDigitsCore
    by_cases h0 : n / 10 = 0
    · simp only [h0, if_true]
      exact hds
    · simp only [h0, if_false]
      exact ih _ _ hds

/-- The text of a natural number denotes it in base ten. -/
theorem decimalValue_toString (n : Nat) : decimalValue (toString n).data = n := by
  show decimalValue (Nat.toDigits 10 n).asString.data = n
  unfold decimalValue Nat.toDigits
  exact toDigitsCore_decimalValue (n + 1) n [] (Nat.lt_succ_self n)

/-- The text of a natural number holds decimal digits only. -/
theorem toString_isDigit (n : Nat) : ∀ c ∈ (toString n).data, c.isDigit = true := by
  show ∀ c ∈ (Nat.toDigits 10 n).asString.data, c.isDigit = true
  unfold Nat.toDigits
  exact toDigitsCore_isDigit (n + 1) n [] (by simp)

/-- C12: `Chunk.String` is the decimal representation of `len(Data)` (digits
only, denoting the length in base ten) immediately followed by the letter `b`;
an empty chunk gives `0b`; two chunks have the same description if and only if
their `Data` have the same length, whatever the bytes are. -/
theorem Chunk_String_length_only (c₁ c₂ : Chunk) :
    (∃ digits : List Char, Chunk.String c₁ = String.mk (digits ++ ['b']) ∧
      (∀ d ∈ digits, d.isDigit = true) ∧ digits ≠ [] ∧
      decimalValue digits = c₁.Data.length) ∧
    Chunk.String ⟨[]⟩ = "0b" ∧
    (Chunk.String c₁ = Chunk.String c₂ ↔ c₁.Data.length = c₂.Data.length) := by
  refine ⟨⟨(toString c₁.Data.length).data, rfl, toString_isDigit _, ?_,
    decimalValue_toString _⟩, by decide, ?_⟩
  · intro he
    have h0 := decimalValue_toString c₁.Data.length
    have ht : (toString c₁.Data.length).data = (toString 0).data := by
      rw [he] at h0
      have : c₁.Data.length = 0 := by simpa [decimalValue] using h0.symm
      rw [this]
    rw [he] at ht
    exact absurd ht (by decide)
  · constructor
    · intro h
      have hd : (toString c₁.Data.length).data ++ ['b'] =
          (toString c₂.Data.length).data ++ ['b'] := congrArg String.data h
      have hn := congrArg decimalValue (List.append_cancel_right hd)
      rwa [decimalValue_toString, decimalValue_toString] at hn
    · intro h
      unfold Chunk.String
      rw [h]

/-- Witness of C12: chunks of equal length with different bytes are described
alike, a longer chunk is described otherwise. -/
theorem Chunk_String_length_only_witness :
    Chunk.String ⟨[1, 2, 3]⟩ = "3b" ∧
    Chunk.String ⟨[1, 2, 3]⟩ = Chunk.String ⟨[7, 8, 9]⟩ ∧
    Chunk.String ⟨[1, 2, 3]⟩ ≠ Chunk.String ⟨[1, 2, 3, 4]⟩ :=
  ⟨by decide,
   (Chunk_String_length_only ⟨[1, 2, 3]⟩ ⟨[7, 8, 9]⟩).2.2.2 (by decide),
   fun h => absurd ((Chunk_String_length_only ⟨[1, 2, 3]⟩ ⟨[1, 2, 3, 4]⟩).2.2.1 h)
     (by decide)⟩


/-! ## Properties of the completeness query -/

/-- The completeness query holds exactly when every index below the declared
total is mapped to a chunk. -/
theorem DataChunks.isComplete_iff (dc : DataChunks) :
    dc.isComplete = true ↔
      ∀ i, i < dc.TotalChunks → ∃ c, mapLookup dc.ChunksData i = some (some c) := by
  unfold DataChunks.isComplete
  rw [List.all_eq_true]
  constructor
  · intro h i hi
    have hi' := h i (List.mem_range.2 hi)
    split at hi'
    · rename_i c hc
      exact ⟨c, hc⟩
    · cases hi'
  · intro h i hi
    obtain ⟨c, hc⟩ := h i (List.mem_range.1 hi)
    rw [hc]

/-- An `insert` keeps the declared total. -/
theorem DataChunks.insert_total (dc : DataChunks) (index : Nat) (data : List UInt8) :
    (dc.insert index data).2.TotalChunks = dc.TotalChunks := by
  unfold DataChunks.insert
  split <;> rfl

/-- After an `insert`, an index below the declared total is mapped to a chunk
exactly when it was before or it is the index of the call. -/
theorem DataChunks.insert_lookup (dc : DataChunks) (index : Nat) (data : List UInt8)
    (i : Nat) (hi : i < dc.TotalChunks) :
    (∃ c, mapLookup (dc.insert index data).2.ChunksData i = some (some c)) ↔
      (∃ c, mapLookup dc.ChunksData i = some (some c)) ∨ i = index := by
  by_cases hidx : dc.TotalChunks ≤ index
  · have e : dc.insert index data = (.error .IndexOutOfRange, dc) := by
      simp only [DataChunks.insert, if_pos hidx]
    rw [e]
    constructor
    · exact fun h => Or.inl h
    · rintro (h | h)
      · exact h
      · omega
  · have e : dc.insert index data =
        (.ok (), { dc with ChunksData := mapAssign dc.ChunksData index (some ⟨data⟩) }) := by
      simp only [DataChunks.insert, if_neg hidx]
    rw [e]
    by_cases hii : i = index
    · subst hii
      constructor
      · exact fun _ => Or.inr rfl
      · exact fun _ => ⟨⟨data⟩, mapLookup_mapAssign_self _ _ _⟩
    · have hl : mapLookup (mapAssign dc.ChunksData index (some ⟨data⟩)) i =
          mapLookup dc.ChunksData i := mapLookup_mapAssign_other _ _ _ _ hii
      constructor
      · intro h
        obtain ⟨c, hc⟩ := h
        exact Or.inl ⟨c, by rw [← hl]; exact hc⟩
      · rintro (h | h)
        · obtain ⟨c, hc⟩ := h
          exact ⟨c, by rw [← hc]; exact hl⟩
        · exact absurd h hii

/-- After a sequence of `insert` calls, an index below the declared total is
mapped to a chunk exactly when it was before or it is the index of a call. -/
theorem DataChunks.insertAll_lookup (calls : List (Nat × List UInt8)) :
    ∀ (dc : DataChunks) (i : Nat), i < dc.TotalChunks →
      ((∃ c, mapLookup (dc.insertAll calls).ChunksData i = some (some c)) ↔
        (∃ c, mapLookup dc.ChunksData i = some (some c)) ∨ i ∈ calls.map Prod.fst) := by
  induction calls with
  | nil =>
    intro dc i _
    simp [DataChunks.insertAll]
  | cons call rest ih =>
    intro dc i hi
    obtain ⟨index, data⟩ := call
    have ht := DataChunks.insert_total dc index data
    have h1 := ih (dc.insert index data).2 i (by rw [ht]; exact hi)
    have h2 := DataChunks.insert_lookup dc index data i hi
    rw [DataChunks.insertAll, h1, h2, List.map_cons, List.mem_cons]
    tauto

/-- A sequence of `insert` calls keeps the declared total. -/
theorem DataChunks.insertAll_total (calls : List (Nat × List UInt8)) :
    ∀ dc : DataChunks, (dc.insertAll calls).TotalChunks = dc.TotalChunks := by
  induction calls with
  | nil => intro dc; rfl
  | cons call rest ih =>
    intro dc
    rw [DataChunks.insertAll, ih, DataChunks.insert_total]

/-- A chunk set created with total `N` is complete after a sequence of `insert`
calls exactly when every index below `N` is the index of a call. -/
theorem DataChunks.isComplete_insertAll (N : Nat) (calls : List (Nat × List UInt8)) :
    ((DataChunks.create N).insertAll calls).isComplete = true ↔
      ∀ i, i < N → i ∈ calls.map Prod.fst := by
  rw [DataChunks.isComplete_iff, DataChunks.insertAll_total]
  have hl := DataChunks.insertAll_lookup calls (DataChunks.create N)
  constructor
  · intro h i hi
    rcases (hl i hi).1 (h i hi) with ⟨c, hc⟩ | hm
    · simp [DataChunks.create, mapLookup] at hc
    · exact hm
  · intro h i hi
    exact (hl i hi).2 (Or.inr (h i hi))

/-- C11: the completeness query is true if and only if every index in
`[0, TotalChunks)` has an associated chunk; on a chunk set created with total
`N` it is true after `insert` calls at every index `0..N-1`, in any order (in
particular in any permutation of these indexes), and false after `insert`
calls that leave some index below `N` out. -/
theorem DataChunks_isComplete_spec :
    (∀ dc : DataChunks, dc.isComplete = true ↔
      ∀ i, i < dc.TotalChunks → ∃ c, mapLookup dc.ChunksData i = some (some c)) ∧
    (∀ (N : Nat) (calls : List (Nat × List UInt8)),
      (calls.map Prod.fst).Perm (List.range N) →
        ((DataChunks.create N).insertAll calls).isComplete = true) ∧
    (∀ (N : Nat) (calls : List (Nat × List UInt8)),
      (∀ i, i < N → i ∈ calls.map Prod.fst) →
        ((DataChunks.create N).insertAll calls).isComplete = true) ∧
    (∀ (N : Nat) (calls : List (Nat × List UInt8)) (i : Nat),
      i < N → i ∉ calls.map Prod.fst →
        ((DataChunks.create N).insertAll calls).isComplete = false) := by
  refine ⟨DataChunks.isComplete_iff, ?_, ?_, ?_⟩
  · intro N calls hp
    exact (DataChunks.isComplete_insertAll N calls).2
      fun i hi => hp.mem_iff.2 (List.mem_range.2 hi)
  · intro N calls h
    exact (DataChunks.isComplete_insertAll N calls).2 h
  · intro N calls i hi hni
    cases hc : ((DataChunks.create N).insertAll calls).isComplete with
    | false => rfl
    | true => exact absurd ((DataChunks.isComplete_insertAll N calls).1 hc i hi) hni

/-- Witness of C11, the example of the spec: with total 3, after the inserts at
1 and 0 the set is not complete, after the insert at 2 it is. -/
theorem DataChunks_isComplete_spec_witness :
    ((DataChunks.create 3).insertAll [(1, [98, 98]), (0, [97])]).isComplete = false ∧
    ((DataChunks.create 3).insertAll
      [(1, [98, 98]), (0, [97]), (2, [99, 99, 99])]).isComplete = true ∧
    (DataChunks.create 3).insertAll [(1, [98, 98]), (0, [97]), (2, [99, 99, 99])] =
      threeChunks :=
  ⟨DataChunks_isComplete_spec.2.2.2 3 [(1, [98, 98]), (0, [97])] 2 (by decide) (by decide),
   DataChunks_isComplete_spec.2.1 3 [(1, [98, 98]), (0, [97]), (2, [99, 99, 99])]
     (by decide),
   by decide⟩

/-! ## Failure of `DataChunks.MarshalJSON` -/

/-- C13, refuted as stated: `nilChunks` is a value of the `DataChunks` type
whose index 0 is mapped to a nil `*Chunk`; the loop reads `chunk.Data` through
it and `DataChunks.MarshalJSON` panics. -/
theorem DataChunks_MarshalJSON_nil_chunk_panics :
    nilChunks.WellFormed ∧
    nilChunks.projection = .error .nilPointerDereference ∧
    nilChunks.MarshalJSON = .error .nilPointerDereference := by
  decide

/-- C13, amended: `DataChunks.MarshalJSON` computes its size and index list
and returns their JSON text for every `DataChunks` value in which no index is
mapped to a nil `*Chunk`, a nil or empty `ChunksData` included; it panics on
the dereference `chunk.Data` exactly when some index is mapped to a nil
`*Chunk`. -/
theorem DataChunks_MarshalJSON_total_iff (dc : DataChunks) :
    (dc.AllPresent →
      ∃ r, dc.projection = .ok r ∧ dc.MarshalJSON = .ok (jsonMarshalDataChunks r) ∧
        r.TotalChunks = dc.TotalChunks ∧ r.Chunks = dc.keys) ∧
    (dc.ChunksData = [] →
      dc.MarshalJSON = .ok (jsonMarshalDataChunks ⟨dc.TotalChunks, 0, []⟩)) ∧
    ((∃ e ∈ dc.ChunksData, e.2 = none) ↔
      dc.MarshalJSON = .error .nilPointerDereference) := by
  refine ⟨?_, ?_, ?_⟩
  · intro h
    refine ⟨_, DataChunks.projection_ok dc h, ?_, rfl, rfl⟩
    simp only [DataChunks.MarshalJSON, DataChunks.projection_ok dc h]
  · intro h
    simp only [DataChunks.MarshalJSON, DataChunks.projection, h, DataChunks.rangeLoop]
  · constructor
    · intro h
      have hn : ¬ dc.AllPresent := by
        intro hall
        obtain ⟨e, he, hnone⟩ := h
        exact hall e he hnone
      simp only [DataChunks.MarshalJSON, DataChunks.projection_nil dc hn]
    · intro h
      by_contra hne
      have hall : dc.AllPresent := by
        intro e he hnone
        exact hne ⟨e, he, hnone⟩
      simp only [DataChunks.MarshalJSON, DataChunks.projection_ok dc hall] at h
      cases h

/-- Witness of C13, amended: the empty chunk set with total 3 and the map
`{1: "bb", 0: "a"}` are marshalled, the latter with size 3. -/
theorem DataChunks_MarshalJSON_total_iff_witness :
    (DataChunks.create 3).ChunksData = [] ∧
    (DataChunks.create 3).MarshalJSON =
      .ok "\x7b\"totalChunks\":3,\"size\":0,\"chunks\":null\x7d" ∧
    twoChunks.AllPresent ∧
    twoChunks.MarshalJSON = .ok "\x7b\"totalChunks\":3,\"size\":3,\"chunks\":[1,0]\x7d" ∧
    ∃ r, twoChunks.projection = .ok r ∧
      twoChunks.MarshalJSON = .ok (jsonMarshalDataChunks r) ∧
      r.TotalChunks = twoChunks.TotalChunks ∧ r.Chunks = twoChunks.keys :=
  ⟨rfl, by decide, by decide, by decide,
   (DataChunks_MarshalJSON_total_iff twoChunks).1 (by decide)⟩

end model
